import Mathlib

/-!
Verification of the rosalana-dev composables against their documented
behaviour.  The embedding follows the TypeScript sources shipped in the
documentation pages (`contentReducer`, `useControlStateByURL`) and, for the
activity tracker whose implementation is distributed by the scaffolding CLI
and not contained in this repository, a model built from the specification.
-/

namespace Rosalana

/-! ## ContentReducer (from the code block in `1.content-reducer.md`) -/

/-- An element of the array returned by `contentReducer`.  The source works on
`any[]`; besides the caller's items, the `renderRemainingCount` option pushes a
rendered `h('span', ..., "+N more")` node, and indexing past the end of a
JavaScript array yields `undefined`. -/
inductive CRItem (α : Type) where
  | item : α → CRItem α
  | moreSpan : String → String → CRItem α
  | undef : CRItem α
deriving DecidableEq

/-- Options of `contentReducer`; an absent TypeScript option is `false`. -/
structure CROptions where
  firstAndLast : Bool
  renderRemainingCount : Bool
deriving DecidableEq

/-- Return shape of `contentReducer`; the early-return branch leaves
`remaining`, `remainingCount` and `cutIndex` absent (`none`). -/
structure CRResult (α : Type) where
  content : List (CRItem α)
  remaining : Option (List α)
  remainingCount : Option Nat
  cutIndex : Option Int
deriving DecidableEq

/-- Index resolution of JavaScript `Array.prototype.slice`: a negative index
counts from the end, and the result is clamped to `[0, length]`. -/
def jsIdx (len : Nat) (i : Int) : Int :=
  if i < 0 then max ((len : Int) + i) 0 else min i len

/-- JavaScript `Array.prototype.slice(start, stop)`. -/
def jsSlice (l : List α) (start stop : Int) : List α :=
  (l.drop (jsIdx l.length start).toNat).take
    (jsIdx l.length stop - jsIdx l.length start).toNat

lemma jsSlice_length (l : List α) (a b : Int) :
    (jsSlice l a b).length =
      min (jsIdx l.length b - jsIdx l.length a).toNat
        (l.length - (jsIdx l.length a).toNat) := by
  simp [jsSlice]

/-- The `contentReducer` function, translated from the TypeScript source.
`limit` is the (nonnegative) number of items to show, default `5` in the
source.  The `[]` input case of the second branch is unreachable because an
empty array always satisfies `content.length <= limit`. -/
def contentReducer (content : List α) (limit : Nat) (opts : CROptions) :
    CRResult α :=
  if content.length ≤ limit then
    ⟨content.map CRItem.item, none, none, none⟩
  else
    match content with
    | [] => ⟨[], none, none, none⟩
    | c0 :: cs =>
      let c := c0 :: cs
      let p :=
        if opts.firstAndLast then
          let limitedLength : Int := (limit : Int) - 2
          let reduced := jsSlice c 1 (limitedLength + 1)
          let reduced := c0 :: (reduced ++ [c.getLast (List.cons_ne_nil c0 cs)])
          let remainingItems := jsSlice c (limitedLength + 1) ((c.length : Int) - 1)
          (reduced, remainingItems, limitedLength + 1)
        else
          (jsSlice c 0 (limit : Int), jsSlice c (limit : Int) (c.length : Int),
            (limit : Int))
      let reducedContent := p.1.map CRItem.item
      let remainingItems := p.2.1
      let rCount := remainingItems.length
      let reducedContent :=
        if opts.renderRemainingCount ∧ 0 < rCount then
          reducedContent ++
            [CRItem.moreSpan "text-gray-500 text-sm" ("+" ++ toString rCount ++ " more")]
        else reducedContent
      ⟨reducedContent, some remainingItems, some rCount, some p.2.2⟩

/-! ## useControlStateByURL (from the code block in the composable's page) -/

/-- Configuration of `useControlStateByURL`.  The field `pre` models the
optional `options.prefix` string; `history` models the optional boolean
`options.history` (absent = `false`). -/
structure ControlConfig where
  url : String
  pre : Option String
  history : Bool

/-- The router navigation performed by the composable. -/
inductive NavAction where
  | navPush (hash : String)
  | navReplace (hash : String)
  | navBack
deriving DecidableEq

/-- JavaScript truthiness of an optional string: `undefined` and `""` are
falsy. -/
def truthy : Option String → Bool
  | none => false
  | some s => s ≠ ""

/-- `const prefix = options.prefix ? options.prefix + "-" : ""`. -/
def hashPre (o : ControlConfig) : String :=
  match o.pre with
  | some s => if s = "" then "" else s ++ "-"
  | none => ""

/-- `activate(url?)`: the argument defaults to `options.url`; when
`options.prefix` is falsy the argument is overwritten with `options.url`;
then `router.push` with hash `#` + prefix + url. -/
def activate (o : ControlConfig) (url : Option String) : NavAction :=
  let u := url.getD o.url
  let u := if truthy o.pre then u else o.url
  NavAction.navPush ("#" ++ hashPre o ++ u)

/-- `go(url)`: when `options.prefix` is falsy the argument is overwritten
with `options.url`; `router.push` in history mode, otherwise
`router.replace`, with hash `#` + prefix + url. -/
def go (o : ControlConfig) (url : String) : NavAction :=
  let u := if truthy o.pre then url else o.url
  if o.history then NavAction.navPush ("#" ++ hashPre o ++ u)
  else NavAction.navReplace ("#" ++ hashPre o ++ u)

/-- The hash a navigation action goes to, if any. -/
def navTarget : NavAction → Option String
  | NavAction.navPush h => some h
  | NavAction.navReplace h => some h
  | NavAction.navBack => none

/-! ## ActivityTracker

The tracker's implementation is distributed to consumers by the scaffolding
CLI and is not part of this repository; the definitions below are modelled
from the specification.

String primitives are re-implemented on the underlying character lists so
that every definition evaluates by kernel reduction. -/

/-- `s.startsWith pre`, over the character lists. -/
def strStartsWith (s pre : String) : Bool :=
  pre.data.isPrefixOf s.data

/-- `s.contains c`, over the character list. -/
def strContains (s : String) (c : Char) : Bool :=
  s.data.contains c

/-- Split a character list on a separator character. -/
def splitOnChar (sep : Char) : List Char → List (List Char)
  | [] => [[]]
  | c :: rest =>
      match splitOnChar sep rest with
      | [] => [[]]
      | g :: gs => if c = sep then [] :: g :: gs else (c :: g) :: gs

/-- `s.splitOn sep` for a one-character separator. -/
def strSplitOn (s : String) (sep : Char) : List String :=
  (splitOnChar sep s.data).map (fun l => ⟨l⟩)

/-- Modelled from the spec: one activity record per distinct visited path
(spec data model).  `meta` is opaque to the engine and modelled as a string;
timestamps are naturals. -/
structure ActivityRecord where
  path : String
  count : Nat
  lastVisited : Nat
  meta : String
deriving DecidableEq

/-- Modelled from the spec: recognized configuration: optional maximum store
size and the exclusion list of exact paths or prefixes. -/
structure ActivityConfig where
  max : Option Nat
  exclude : List String
deriving DecidableEq

/-- Modelled from the spec: the record set held by the store. -/
structure ActivityStore where
  config : ActivityConfig
  records : List ActivityRecord
deriving DecidableEq

/-- Modelled from the spec: a path is excluded when it equals a configured
entry or starts with one (exclusion by exact path or by prefix). -/
def isExcluded (cfg : ActivityConfig) (p : String) : Bool :=
  cfg.exclude.any (fun e => p == e || strStartsWith p e)

/-- Modelled from the spec: the exact scoring formula is left open; this
model chooses the monotone formula `1000 * count - (now - lastVisited)`,
which is increasing in `count`, increasing in `lastVisited` at fixed
`count`, and a pure function of `(count, lastVisited, now)`. -/
def scoreFn (count lastVisited now : Nat) : Int :=
  1000 * (count : Int) - ((now : Int) - (lastVisited : Int))

/-- Score of a record at the current time. -/
def scoreOf (now : Nat) (r : ActivityRecord) : Int :=
  scoreFn r.count r.lastVisited now

/-- Modelled from the spec: eviction preference: lowest score first, ties
broken by the oldest `lastVisited`.  `worse now a b` holds when `a` is a
strictly better eviction candidate than `b`. -/
def worse (now : Nat) (a b : ActivityRecord) : Bool :=
  scoreOf now a < scoreOf now b ||
    (scoreOf now a == scoreOf now b && a.lastVisited < b.lastVisited)

/-- Pick the eviction candidate among `cur` (current best) and `l`. -/
def pickEvict (now : Nat) (cur : ActivityRecord) :
    List ActivityRecord → ActivityRecord
  | [] => cur
  | x :: xs =>
      if worse now x cur then pickEvict now x xs else pickEvict now cur xs

/-- The record chosen for eviction from a record list, if any. -/
def evictChoice (now : Nat) : List ActivityRecord → Option ActivityRecord
  | [] => none
  | r :: rs => some (pickEvict now r rs)

/-- Remove the first occurrence of a record from a list. -/
def eraseFirst (v : ActivityRecord) : List ActivityRecord → List ActivityRecord
  | [] => []
  | x :: xs => if x = v then xs else x :: eraseFirst v xs

/-- Evict the chosen record. -/
def evictOne (now : Nat) (l : List ActivityRecord) : List ActivityRecord :=
  match evictChoice now l with
  | none => l
  | some v => eraseFirst v l

/-- The record list just before a fresh insertion: evicts one record when
the configured maximum has been reached. -/
def preInsert (now : Nat) (s : ActivityStore) : List ActivityRecord :=
  match s.config.max with
  | some m =>
      if m ≤ s.records.length then evictOne now s.records
      else s.records
  | none => s.records

/-- Modelled from the spec: `upsert(path, meta)` as invoked by the tracker's
`track`: no-op on excluded paths; when a record for `path` exists its
`count` is incremented and `lastVisited` refreshed; otherwise a fresh record
with `count = 1` is inserted, evicting the lowest-scoring record first when
the insertion would exceed the configured maximum. -/
def track (now : Nat) (p meta : String) (s : ActivityStore) : ActivityStore :=
  if isExcluded s.config p then s
  else
    match s.records.find? (fun r => r.path == p) with
    | some _ =>
        ⟨s.config, s.records.map (fun r =>
          if r.path == p then ⟨r.path, r.count + 1, now, r.meta⟩ else r)⟩
    | none =>
        ⟨s.config, preInsert now s ++ [⟨p, 1, now, meta⟩]⟩

/-- One tracked visit: its time and the path and opaque meta extracted from
the route descriptor. -/
structure VisitEvent where
  time : Nat
  path : String
  meta : String

/-- The store before any visit is tracked. -/
def emptyStore (cfg : ActivityConfig) : ActivityStore := ⟨cfg, []⟩

/-- Apply a sequence of `track` calls in order. -/
def applyTracks (s : ActivityStore) : List VisitEvent → ActivityStore
  | [] => s
  | e :: es => applyTracks (track e.time e.path e.meta s) es

/-- Modelled from the spec: the parsed form of a query selector. -/
inductive Selector where
  | all
  | byGroup (g : String)
  | byType (t : String)
  | byGroupAndType (g t : String)
  | byPath (p : String)
  | invalid
deriving DecidableEq

/-- Modelled from the spec: the selector grammar of `query`; unrecognized
forms (more than one `@`) match nothing.  A bare string is a path when it
starts with `/`, otherwise a group name. -/
def parseSelector (s : String) : Selector :=
  if s = "" then Selector.all
  else if strContains s '@' then
    match strSplitOn s '@' with
    | [g, t] =>
        if g = "" then Selector.byType t else Selector.byGroupAndType g t
    | _ => Selector.invalid
  else if strStartsWith s "/" then Selector.byPath s
  else Selector.byGroup s

/-- First non-empty entry of a list of strings. -/
def firstSeg : List String → String
  | [] => ""
  | s :: rest => if s = "" then firstSeg rest else s

/-- Modelled from the spec: `group` is the path's first non-empty segment. -/
def pathGroup (p : String) : String := firstSeg (strSplitOn p '/')

/-- Modelled from the spec: `type` is derived from the path's shape: a
single segment is an `index` page, a trailing `create`/`edit` segment names
the page role, anything else is a `show` page. -/
def pathType (p : String) : String :=
  let segs := (strSplitOn p '/').filter (fun s => s ≠ "")
  if segs.length ≤ 1 then "index"
  else
    match segs.getLast? with
    | some "create" => "create"
    | some "edit" => "edit"
    | _ => "show"

/-- Whether a record is in the scope described by a parsed selector. -/
def matchesSel (sel : Selector) (r : ActivityRecord) : Bool :=
  match sel with
  | Selector.all => true
  | Selector.byGroup g => pathGroup r.path == g
  | Selector.byType t => pathType r.path == t
  | Selector.byGroupAndType g t =>
      pathGroup r.path == g && pathType r.path == t
  | Selector.byPath p => r.path == p
  | Selector.invalid => false

/-- A record as returned by `get`: the stored fields plus the score computed
at query time. -/
structure ScoredRecord where
  path : String
  count : Nat
  lastVisited : Nat
  meta : String
  score : Int
deriving DecidableEq

/-- Attach the query-time score to a record. -/
def mkScored (now : Nat) (r : ActivityRecord) : ScoredRecord :=
  ⟨r.path, r.count, r.lastVisited, r.meta, scoreOf now r⟩

/-- Descending-score order used to sort query results. -/
def scoreGE (a b : ScoredRecord) : Prop := b.score ≤ a.score

instance : DecidableRel scoreGE := fun a b =>
  inferInstanceAs (Decidable (b.score ≤ a.score))

instance : IsTotal ScoredRecord scoreGE :=
  ⟨fun a b => (le_total b.score a.score).imp (fun h => h) (fun h => h)⟩

instance : IsTrans ScoredRecord scoreGE :=
  ⟨fun _ _ _ h1 h2 => le_trans h2 h1⟩

/-- `get`'s optional `limit` truncation. -/
def applyLimit : Option Nat → List ScoredRecord → List ScoredRecord
  | none, l => l
  | some n, l => l.take n

/-- Modelled from the spec: `query(selector).get(limit?)`: filter the
records by the parsed selector, compute each score at the caller's current
time, sort descending by score, truncate to `limit` when given. -/
def getQ (sel : String) (now : Nat) (lim : Option Nat) (s : ActivityStore) :
    List ScoredRecord :=
  applyLimit lim
    (List.insertionSort scoreGE
      ((s.records.filter (matchesSel (parseSelector sel))).map (mkScored now)))

/-- `query(selector).ids(limit?)`: only the paths, same order. -/
def idsQ (sel : String) (now : Nat) (lim : Option Nat) (s : ActivityStore) :
    List String :=
  (getQ sel now lim s).map (fun r => r.path)

/-! ### Storage backend (modelled from the spec, for the failure semantics) -/

/-- Modelled from the spec: a pluggable key-value storage backend: it may be
absent or throw on access; otherwise it holds key-value pairs. -/
inductive Backend where
  | absent
  | throwing
  | available (data : List (String × String))
deriving DecidableEq

/-- `backend.get(key)`; the outer `none` signals an absent or throwing
backend. -/
def backendGet : Backend → String → Option (Option String)
  | Backend.absent, _ => none
  | Backend.throwing, _ => none
  | Backend.available d, k => some (d.lookup k)

/-- `backend.set(key, value)`; `none` signals an absent or throwing
backend. -/
def backendSet : Backend → String → String → Option Backend
  | Backend.absent, _, _ => none
  | Backend.throwing, _, _ => none
  | Backend.available d, k, v => some (Backend.available ((k, v) :: d))

/-- Modelled from the spec: record serialization; the spec leaves the exact
structured text format open, a line-per-record format is chosen here. -/
def serializeRecord (r : ActivityRecord) : String :=
  r.path ++ "|" ++ toString r.count ++ "|" ++ toString r.lastVisited ++ "|"
    ++ r.meta

/-- Serialize the whole record set. -/
def serializeRecords (l : List ActivityRecord) : String :=
  String.intercalate "\n" (l.map serializeRecord)

/-- Deserialize one record line; malformed lines yield `none`. -/
def parseRecord (line : String) : Option ActivityRecord :=
  match strSplitOn line '|' with
  | [p, c, lv, m] =>
      match c.toNat?, lv.toNat? with
      | some cn, some ln => some ⟨p, cn, ln, m⟩
      | _, _ => none
  | _ => none

/-- Collect a list of optional values, failing when any is absent. -/
def allSome : List (Option α) → Option (List α)
  | [] => some []
  | none :: _ => none
  | some a :: rest => (allSome rest).map (fun l => a :: l)

/-- Deserialize the whole record set; `none` on malformed data. -/
def parseRecords (s : String) : Option (List ActivityRecord) :=
  if s = "" then some []
  else allSome ((strSplitOn s '\n').map parseRecord)

/-- Modelled from the spec: `load()`: an absent or failing backend, an
absent key, or malformed data all yield the empty record set. -/
def load (key : String) (b : Backend) : List ActivityRecord :=
  match backendGet b key with
  | none => []
  | some none => []
  | some (some s) => (parseRecords s).getD []

/-- Modelled from the spec: a full `track` call against the backend:
load, mutate, save; a failing save silently drops the event. -/
def trackB (cfg : ActivityConfig) (key : String) (now : Nat) (p meta : String)
    (b : Backend) : Backend :=
  let s := track now p meta ⟨cfg, load key b⟩
  match backendSet b key (serializeRecords s.records) with
  | none => b
  | some b2 => b2

/-- Modelled from the spec: a `query(selector).get(limit?)` call against the
backend. -/
def queryB (cfg : ActivityConfig) (key : String) (sel : String) (now : Nat)
    (lim : Option Nat) (b : Backend) : List ScoredRecord :=
  getQ sel now lim ⟨cfg, load key b⟩

/-! ### Helper lemmas for `contentReducer` -/

lemma contentReducer_fl_eq (c0 : α) (cs : List α) (limit : Nat)
    (h : limit < (c0 :: cs).length) :
    contentReducer (c0 :: cs) limit ⟨true, false⟩ =
      ⟨(c0 :: (jsSlice (c0 :: cs) 1 ((limit : Int) - 2 + 1) ++
          [(c0 :: cs).getLast (List.cons_ne_nil c0 cs)])).map CRItem.item,
        some (jsSlice (c0 :: cs) ((limit : Int) - 2 + 1)
          (((c0 :: cs).length : Int) - 1)),
        some (jsSlice (c0 :: cs) ((limit : Int) - 2 + 1)
          (((c0 :: cs).length : Int) - 1)).length,
        some ((limit : Int) - 2 + 1)⟩ := by
  unfold contentReducer
  rw [if_neg (by omega)]
  simp

lemma jsSlice_len_mid (c : List α) (limit : Nat) (h2 : 2 ≤ limit)
    (hlt : limit < c.length) :
    (jsSlice c 1 ((limit : Int) - 2 + 1)).length = limit - 2 := by
  rw [jsSlice_length]
  unfold jsIdx
  rw [if_neg (by omega), if_neg (by omega)]
  omega

/-- C8: when the input length is at most the limit, the input is returned
unchanged as `content` and the other three fields are absent, for every
option combination. -/
theorem contentReducer_under_limit (content : List α) (limit : Nat)
    (opts : CROptions) (h : content.length ≤ limit) :
    contentReducer content limit opts =
      ⟨content.map CRItem.item, none, none, none⟩ := by
  unfold contentReducer
  rw [if_pos h]

theorem contentReducer_under_limit_spot :
    ([10, 20, 30] : List Nat).length ≤ 5 ∧
      contentReducer ([10, 20, 30] : List Nat) 5 ⟨true, true⟩ =
        ⟨[CRItem.item 10, CRItem.item 20, CRItem.item 30], none, none, none⟩ :=
  ⟨by decide, contentReducer_under_limit _ _ _ (by decide)⟩

/-- C9 as stated is false: with `firstAndLast` and `limit = 0` on a
three-element array, the returned content has 3 elements, not 2. -/
theorem contentReducer_small_limit_not_two :
    ¬ ((contentReducer ([1, 2, 3] : List Nat) 0 ⟨true, false⟩).content.length
        = 2) := by
  decide

/-- C9 (amended): with `firstAndLast` set, `renderRemainingCount` unset and
`c.length > limit`: if `limit ≥ 2` the content has exactly `limit` elements,
keeps the first and last input elements, and `cutIndex = limit - 1`; if
`limit < 2` the content has at least 2 elements and so exceeds `limit`. -/
theorem contentReducer_firstAndLast (c : List α) (limit : Nat)
    (hlt : limit < c.length) :
    (2 ≤ limit →
      (contentReducer c limit ⟨true, false⟩).content.length = limit ∧
      (contentReducer c limit ⟨true, false⟩).content.head? =
        c.head?.map CRItem.item ∧
      (contentReducer c limit ⟨true, false⟩).content.getLast? =
        c.getLast?.map CRItem.item ∧
      (contentReducer c limit ⟨true, false⟩).cutIndex =
        some ((limit : Int) - 1)) ∧
    (limit < 2 →
      2 ≤ (contentReducer c limit ⟨true, false⟩).content.length ∧
      limit < (contentReducer c limit ⟨true, false⟩).content.length) := by
  match c, hlt with
  | c0 :: cs, hlt =>
    rw [contentReducer_fl_eq c0 cs limit hlt]
    constructor
    · intro h2
      refine ⟨?_, ?_, ?_, ?_⟩
      · simp only [List.map_cons, List.map_append, List.length_cons,
          List.length_append, List.length_map, List.length_cons,
          List.length_nil]
        have := jsSlice_len_mid (c0 :: cs) limit h2 hlt
        omega
      · simp
      · rw [List.getLast?_map, ← List.cons_append, List.getLast?_concat,
          List.getLast?_eq_getLast _ (List.cons_ne_nil c0 cs)]
      · simp only [Option.some.injEq]
        omega
    · intro _
      constructor
      · simp
      · simp only [List.map_cons, List.map_append, List.length_cons,
          List.length_append, List.length_map]
        omega

theorem contentReducer_firstAndLast_spot :
    (2 : Nat) < ([1, 2, 3, 4] : List Nat).length ∧
      ((2 ≤ 2 →
        (contentReducer ([1, 2, 3, 4] : List Nat) 2 ⟨true, false⟩).content.length
          = 2 ∧
        (contentReducer ([1, 2, 3, 4] : List Nat) 2 ⟨true, false⟩).content.head?
          = ([1, 2, 3, 4] : List Nat).head?.map CRItem.item ∧
        (contentReducer ([1, 2, 3, 4] : List Nat) 2 ⟨true, false⟩).content.getLast?
          = ([1, 2, 3, 4] : List Nat).getLast?.map CRItem.item ∧
        (contentReducer ([1, 2, 3, 4] : List Nat) 2 ⟨true, false⟩).cutIndex
          = some ((2 : Int) - 1)) ∧
      (2 < 2 →
        2 ≤ (contentReducer ([1, 2, 3, 4] : List Nat) 2 ⟨true, false⟩).content.length ∧
        2 < (contentReducer ([1, 2, 3, 4] : List Nat) 2 ⟨true, false⟩).content.length)) :=
  ⟨by decide, contentReducer_firstAndLast _ _ (by decide)⟩

/-! ### Theorems about `useControlStateByURL` -/

lemma String.emptyAppend (s : String) : "" ++ s = s := by
  apply String.ext
  simp [String.data_append]

/-- C10: with `options.prefix` unset, both `activate` and `go` ignore their
argument and navigate to the hash `#` + `options.url`. -/
theorem control_no_pre_ignores_url (o : ControlConfig) (h : o.pre = none)
    (u1 : Option String) (u2 : String) :
    navTarget (activate o u1) = some ("#" ++ o.url) ∧
      navTarget (go o u2) = some ("#" ++ o.url) := by
  have hp : hashPre o = "" := by simp [hashPre, h]
  have ht : truthy o.pre = false := by simp [truthy, h]
  constructor
  · simp [activate, navTarget, hp, ht]
  · unfold go
    rcases hb : o.history
    · simp [navTarget, hp, ht]
    · simp [navTarget, hp, ht]

theorem control_no_pre_spot :
    (ControlConfig.mk "tab1" none false).pre = none ∧
      (navTarget (activate (ControlConfig.mk "tab1" none false) (some "zzz")) =
          some ("#" ++ "tab1") ∧
        navTarget (go (ControlConfig.mk "tab1" none false) "yyy") =
          some ("#" ++ "tab1")) :=
  ⟨rfl, control_no_pre_ignores_url _ rfl _ _⟩

/-! ### Eviction order: facts about `worse` and `pickEvict` -/

lemma worse_true_iff (now : Nat) (a b : ActivityRecord) :
    worse now a b = true ↔
      (scoreOf now a < scoreOf now b ∨
        (scoreOf now a = scoreOf now b ∧ a.lastVisited < b.lastVisited)) := by
  simp [worse]

lemma worse_false_iff (now : Nat) (a b : ActivityRecord) :
    worse now a b = false ↔
      (scoreOf now b < scoreOf now a ∨
        (scoreOf now a = scoreOf now b ∧ b.lastVisited ≤ a.lastVisited)) := by
  rw [← Bool.not_eq_true, worse_true_iff]
  omega

lemma worse_irrefl (now : Nat) (a : ActivityRecord) :
    worse now a a = false := by
  rw [worse_false_iff]
  omega

lemma worse_trans {now : Nat} {a b c : ActivityRecord}
    (h1 : worse now a b = true) (h2 : worse now b c = true) :
    worse now a c = true := by
  rw [worse_true_iff] at h1 h2 ⊢
  omega

lemma notWorse_trans {now : Nat} {a b c : ActivityRecord}
    (h1 : worse now a b = false) (h2 : worse now b c = false) :
    worse now a c = false := by
  rw [worse_false_iff] at h1 h2 ⊢
  omega

lemma pickEvict_mem (now : Nat) :
    ∀ (l : List ActivityRecord) (cur : ActivityRecord),
      pickEvict now cur l = cur ∨ pickEvict now cur l ∈ l
  | [], _ => Or.inl rfl
  | x :: xs, cur => by
      unfold pickEvict
      by_cases h : worse now x cur = true
      · rw [if_pos h]
        rcases pickEvict_mem now xs x with h1 | h1
        · refine Or.inr ?_
          rw [h1]
          exact List.mem_cons_self x xs
        · exact Or.inr (List.mem_cons_of_mem _ h1)
      · rw [if_neg h]
        rcases pickEvict_mem now xs cur with h1 | h1
        · exact Or.inl h1
        · exact Or.inr (List.mem_cons_of_mem _ h1)

lemma pickEvict_min (now : Nat) :
    ∀ (l : List ActivityRecord) (cur x : ActivityRecord),
      x = cur ∨ x ∈ l → worse now x (pickEvict now cur l) = false
  | [], cur, x, hx => by
      rcases hx with rfl | h
      · exact worse_irrefl now x
      · cases h
  | a :: xs, cur, x, hx => by
      unfold pickEvict
      by_cases hw : worse now a cur = true
      · rw [if_pos hw]
        rcases hx with rfl | hx2
        · have ha : worse now a (pickEvict now a xs) = false :=
            pickEvict_min now xs a a (Or.inl rfl)
          by_contra hc
          rw [Bool.not_eq_false] at hc
          rw [worse_trans hw hc] at ha
          exact Bool.noConfusion ha
        · rcases List.mem_cons.mp hx2 with rfl | hx3
          · exact pickEvict_min now xs x x (Or.inl rfl)
          · exact pickEvict_min now xs a x (Or.inr hx3)
      · rw [if_neg hw]
        rcases hx with rfl | hx2
        · exact pickEvict_min now xs x x (Or.inl rfl)
        · rcases List.mem_cons.mp hx2 with rfl | hx3
          · have hcur : worse now cur (pickEvict now cur xs) = false :=
              pickEvict_min now xs cur cur (Or.inl rfl)
            have hw2 : worse now x cur = false := by
              rwa [Bool.not_eq_true] at hw
            exact notWorse_trans hw2 hcur
          · exact pickEvict_min now xs cur x (Or.inr hx3)

lemma evictChoice_mem {now : Nat} {l : List ActivityRecord}
    {v : ActivityRecord} (h : evictChoice now l = some v) : v ∈ l := by
  match l, h with
  | r :: rs, h =>
      have hv : pickEvict now r rs = v := by
        simpa [evictChoice] using h
      rcases pickEvict_mem now rs r with h1 | h1
      · rw [← hv, h1]; exact List.mem_cons_self r rs
      · rw [← hv]; exact List.mem_cons_of_mem _ h1

lemma evictChoice_min {now : Nat} {l : List ActivityRecord}
    {v : ActivityRecord} (h : evictChoice now l = some v) :
    ∀ x ∈ l, worse now x v = false := by
  match l, h with
  | r :: rs, h =>
      have hv : pickEvict now r rs = v := by
        simpa [evictChoice] using h
      intro x hx
      rcases List.mem_cons.mp hx with rfl | hx2
      · exact hv ▸ pickEvict_min now rs x x (Or.inl rfl)
      · exact hv ▸ pickEvict_min now rs r x (Or.inr hx2)

/-! ### `eraseFirst` and `evictOne` -/

lemma eraseFirst_sublist (v : ActivityRecord) :
    ∀ l : List ActivityRecord, List.Sublist (eraseFirst v l) l
  | [] => List.Sublist.refl []
  | x :: xs => by
      unfold eraseFirst
      by_cases h : x = v
      · rw [if_pos h]
        exact List.sublist_cons_self x xs
      · rw [if_neg h]
        exact List.Sublist.cons₂ x (eraseFirst_sublist v xs)

lemma eraseFirst_length (v : ActivityRecord) :
    ∀ l : List ActivityRecord, v ∈ l → (eraseFirst v l).length + 1 = l.length
  | x :: xs, h => by
      unfold eraseFirst
      by_cases hx : x = v
      · rw [if_pos hx]
        simp
      · rw [if_neg hx]
        have hmem : v ∈ xs := by
          rcases List.mem_cons.mp h with h1 | h1
          · exact absurd h1.symm hx
          · exact h1
        simp only [List.length_cons]
        rw [← eraseFirst_length v xs hmem]

lemma evictOne_sublist (now : Nat) (l : List ActivityRecord) :
    List.Sublist (evictOne now l) l := by
  unfold evictOne
  cases h : evictChoice now l with
  | none => exact List.Sublist.refl l
  | some v => exact eraseFirst_sublist v l

lemma evictOne_length (now : Nat) (l : List ActivityRecord) (h : l ≠ []) :
    (evictOne now l).length + 1 = l.length := by
  match l, h with
  | r :: rs, _ =>
      unfold evictOne
      cases hc : evictChoice now (r :: rs) with
      | none => simp [evictChoice] at hc
      | some v => exact eraseFirst_length v (r :: rs) (evictChoice_mem hc)

/-! ### C6: excluded paths leave the store untouched -/

/-- C6: for every path matching an exclusion rule, `track` leaves the store
completely unchanged. -/
theorem track_excluded_noop (now : Nat) (p meta : String) (s : ActivityStore)
    (h : isExcluded s.config p = true) : track now p meta s = s := by
  unfold track
  rw [if_pos h]

theorem track_excluded_noop_spot :
    isExcluded (ActivityConfig.mk none ["/login"]) "/login" = true ∧
      track 5 "/login" "m"
          (ActivityStore.mk (ActivityConfig.mk none ["/login"])
            [ActivityRecord.mk "/home" 1 0 "x"]) =
        ActivityStore.mk (ActivityConfig.mk none ["/login"])
          [ActivityRecord.mk "/home" 1 0 "x"] :=
  ⟨by decide, track_excluded_noop _ _ _ _ (by decide)⟩

/-! ### C7: storage failures degrade to no-ops -/

/-- C7: an absent or throwing backend, an absent key, or malformed persisted
data all load as the empty record set; with a failing backend `track` is a
silent no-op and `query` returns an empty scope.  Every operation is a total
function, so no error reaches the caller. -/
theorem activity_fail_open :
    (∀ key : String,
      load key Backend.absent = [] ∧ load key Backend.throwing = []) ∧
    (∀ (key : String) (d : List (String × String)),
      d.lookup key = none → load key (Backend.available d) = []) ∧
    (∀ (key : String) (d : List (String × String)) (s : String),
      d.lookup key = some s → parseRecords s = none →
        load key (Backend.available d) = []) ∧
    (∀ (cfg : ActivityConfig) (key : String) (now : Nat) (p meta : String),
      trackB cfg key now p meta Backend.absent = Backend.absent ∧
        trackB cfg key now p meta Backend.throwing = Backend.throwing) ∧
    (∀ (cfg : ActivityConfig) (key sel : String) (now : Nat)
        (lim : Option Nat),
      queryB cfg key sel now lim Backend.absent = [] ∧
        queryB cfg key sel now lim Backend.throwing = []) := by
  refine ⟨fun key => ⟨rfl, rfl⟩, ?_, ?_, fun cfg key now p meta => ⟨rfl, rfl⟩, ?_⟩
  · intro key d h
    simp [load, backendGet, h]
  · intro key d s h hp
    simp [load, backendGet, h, hp]
  · intro cfg key sel now lim
    constructor <;>
      · cases lim <;> simp [queryB, getQ, load, backendGet, applyLimit]

theorem activity_fail_open_spot :
    List.lookup "activity" [("activity", "garbage")] = some "garbage" ∧
      parseRecords "garbage" = none ∧
      load "activity" (Backend.available [("activity", "garbage")]) = [] :=
  ⟨by decide, by decide,
    activity_fail_open.2.2.1 "activity" [("activity", "garbage")] "garbage"
      (by decide) (by decide)⟩


/-! ### C4: score ordering in query results -/

lemma getQ_subset_sort (sel : String) (now : Nat) (lim : Option Nat)
    (s : ActivityStore) :
    getQ sel now lim s ⊆
      List.insertionSort scoreGE
        ((s.records.filter (matchesSel (parseSelector sel))).map
          (mkScored now)) := by
  unfold getQ
  cases lim with
  | none => exact fun x hx => hx
  | some n => exact List.take_subset n _

lemma getQ_sorted (sel : String) (now : Nat) (lim : Option Nat)
    (s : ActivityStore) : (getQ sel now lim s).Pairwise scoreGE := by
  have hs : (List.insertionSort scoreGE
      ((s.records.filter (matchesSel (parseSelector sel))).map
        (mkScored now))).Pairwise scoreGE :=
    List.sorted_insertionSort scoreGE _
  unfold getQ
  cases lim with
  | none => exact hs
  | some n => exact List.Pairwise.sublist (List.take_sublist n _) hs

lemma getQ_mem_scored (sel : String) (now : Nat) (lim : Option Nat)
    (s : ActivityStore) :
    ∀ r ∈ getQ sel now lim s,
      ∃ a ∈ s.records,
        matchesSel (parseSelector sel) a = true ∧ r = mkScored now a := by
  intro r hr
  have hr2 := getQ_subset_sort sel now lim s hr
  have hr3 : r ∈ (s.records.filter (matchesSel (parseSelector sel))).map
      (mkScored now) := (List.perm_insertionSort scoreGE _).subset hr2
  obtain ⟨a, ha, rfl⟩ := List.mem_map.mp hr3
  obtain ⟨ha1, ha2⟩ := List.mem_filter.mp ha
  exact ⟨a, ha1, ha2, rfl⟩

/-- C4: in every `get`/`ids` result, among records of equal `count` the one
with the more recent `lastVisited` ranks at or above the other; the result is
sorted descending by `score`; each returned `score` is exactly the pure
function of `(count, lastVisited, currentTime)` recomputed at query time; and
`ids` is the paths of `get` in the same order. -/
theorem score_query_ordering (sel : String) (now : Nat) (lim : Option Nat)
    (s : ActivityStore) :
    (getQ sel now lim s).Pairwise (fun a b => b.score ≤ a.score) ∧
    (getQ sel now lim s).Pairwise
      (fun a b => a.count = b.count → b.lastVisited ≤ a.lastVisited) ∧
    (∀ r ∈ getQ sel now lim s, r.score = scoreFn r.count r.lastVisited now) ∧
    idsQ sel now lim s = (getQ sel now lim s).map (fun r => r.path) := by
  have hsorted := getQ_sorted sel now lim s
  have hscored : ∀ r ∈ getQ sel now lim s,
      r.score = scoreFn r.count r.lastVisited now := by
    intro r hr
    obtain ⟨a, _, _, rfl⟩ := getQ_mem_scored sel now lim s r hr
    rfl
  refine ⟨hsorted, ?_, hscored, rfl⟩
  refine List.Pairwise.imp_of_mem ?_ hsorted
  intro a b ha hb hab hcnt
  have h1 := hscored a ha
  have h2 := hscored b hb
  unfold scoreGE at hab
  rw [h1, h2] at hab
  unfold scoreFn at hab
  omega

/-! ### C2: at most one record per path -/

lemma find?_path_none {l : List ActivityRecord} {p : String}
    (h : l.find? (fun r => r.path == p) = none) : ∀ r ∈ l, r.path ≠ p := by
  intro r hr
  have := List.find?_eq_none.mp h r hr
  simpa using this

lemma track_eq_update {now : Nat} {p meta : String} {s : ActivityStore}
    {r0 : ActivityRecord} (hex : isExcluded s.config p = false)
    (hf : s.records.find? (fun r => r.path == p) = some r0) :
    track now p meta s =
      ⟨s.config, s.records.map (fun r =>
        if r.path == p then ⟨r.path, r.count + 1, now, r.meta⟩ else r)⟩ := by
  simp [track, hex, hf]

lemma track_eq_insert {now : Nat} {p meta : String} {s : ActivityStore}
    (hex : isExcluded s.config p = false)
    (hf : s.records.find? (fun r => r.path == p) = none) :
    track now p meta s =
      ⟨s.config, preInsert now s ++ [⟨p, 1, now, meta⟩]⟩ := by
  simp [track, hex, hf]

lemma preInsert_sublist (now : Nat) (s : ActivityStore) :
    List.Sublist (preInsert now s) s.records := by
  unfold preInsert
  cases s.config.max with
  | none => exact List.Sublist.refl _
  | some m =>
      dsimp only
      by_cases hc : m ≤ s.records.length
      · rw [if_pos hc]
        exact evictOne_sublist now s.records
      · rw [if_neg hc]

lemma track_nodup (now : Nat) (p meta : String) (s : ActivityStore)
    (h : s.records.Pairwise (fun a b => a.path ≠ b.path)) :
    (track now p meta s).records.Pairwise (fun a b => a.path ≠ b.path) := by
  by_cases hex : isExcluded s.config p = true
  · rw [track_excluded_noop now p meta s hex]
    exact h
  · rw [Bool.not_eq_true] at hex
    cases hf : s.records.find? (fun r => r.path == p) with
    | some r0 =>
        rw [track_eq_update hex hf]
        refine List.Pairwise.map _ ?_ h
        intro a b hab
        by_cases ha : a.path == p <;> by_cases hb : b.path == p <;>
          simp [ha, hb, hab]
    | none =>
        rw [track_eq_insert hex hf]
        rw [List.pairwise_append]
        refine ⟨List.Pairwise.sublist (preInsert_sublist now s) h, ?_, ?_⟩
        · simp
        · intro a ha b hb
          have hb2 : b = ⟨p, 1, now, meta⟩ := by simpa using hb
          have ha2 : a.path ≠ p :=
            find?_path_none hf a ((preInsert_sublist now s).subset ha)
          rw [hb2]
          exact ha2

lemma applyTracks_nodup (events : List VisitEvent) :
    ∀ s : ActivityStore,
      s.records.Pairwise (fun a b => a.path ≠ b.path) →
      (applyTracks s events).records.Pairwise (fun a b => a.path ≠ b.path) := by
  induction events with
  | nil => intro s h; exact h
  | cons e es ih =>
      intro s h
      exact ih _ (track_nodup e.time e.path e.meta s h)

/-- C2: after any sequence of `track` calls the store holds at most one
record per distinct path. -/
theorem track_unique_paths (cfg : ActivityConfig) (events : List VisitEvent) :
    (applyTracks (emptyStore cfg) events).records.Pairwise
      (fun a b => a.path ≠ b.path) :=
  applyTracks_nodup events (emptyStore cfg) (List.Pairwise.nil)
/-! ### C1: bounded size and lowest-score eviction -/

lemma track_config (now : Nat) (p meta : String) (s : ActivityStore) :
    (track now p meta s).config = s.config := by
  by_cases hex : isExcluded s.config p = true
  · rw [track_excluded_noop now p meta s hex]
  · rw [Bool.not_eq_true] at hex
    cases hf : s.records.find? (fun r => r.path == p) with
    | some r0 => rw [track_eq_update hex hf]
    | none => rw [track_eq_insert hex hf]

lemma track_length_le (now : Nat) (p meta : String) (m : Nat)
    (s : ActivityStore) (hmax : s.config.max = some m) (hm : 1 ≤ m)
    (h : s.records.length ≤ m) :
    (track now p meta s).records.length ≤ m := by
  by_cases hex : isExcluded s.config p = true
  · rw [track_excluded_noop now p meta s hex]
    exact h
  · rw [Bool.not_eq_true] at hex
    cases hf : s.records.find? (fun r => r.path == p) with
    | some r0 =>
        rw [track_eq_update hex hf]
        simpa using h
    | none =>
        rw [track_eq_insert hex hf]
        simp only [List.length_append, List.length_cons, List.length_nil]
        unfold preInsert
        rw [hmax]
        dsimp only
        by_cases hc : m ≤ s.records.length
        · rw [if_pos hc]
          have hne : s.records ≠ [] := by
            intro h0
            rw [h0] at hc
            simp at hc
            omega
          have := evictOne_length now s.records hne
          omega
        · rw [if_neg hc]
          omega

lemma applyTracks_length_le (m : Nat) (hm : 1 ≤ m) (events : List VisitEvent) :
    ∀ s : ActivityStore, s.config.max = some m → s.records.length ≤ m →
      (applyTracks s events).records.length ≤ m := by
  induction events with
  | nil => intro s _ h; exact h
  | cons e es ih =>
      intro s hmax h
      refine ih _ ?_ (track_length_le e.time e.path e.meta m s hmax hm h)
      rw [track_config]
      exact hmax

/-- C1: with a configured maximum `m`, after any sequence of `track` calls
the store holds at most `m` records; and whenever inserting a new distinct
non-excluded path would exceed `m`, the record removed is one with the
lowest score at eviction time, ties broken by the oldest `lastVisited`. -/
theorem capacity_and_eviction (m : Nat) (hm : 1 ≤ m) (cfg : ActivityConfig)
    (hcfg : cfg.max = some m) (events : List VisitEvent) :
    (applyTracks (emptyStore cfg) events).records.length ≤ m ∧
    (∀ (s : ActivityStore) (now : Nat) (p meta : String),
      s.config.max = some m →
      isExcluded s.config p = false →
      s.records.find? (fun r => r.path == p) = none →
      m ≤ s.records.length →
      ∃ v, evictChoice now s.records = some v ∧
        v ∈ s.records ∧
        (∀ x ∈ s.records, scoreOf now v ≤ scoreOf now x ∧
          (scoreOf now v = scoreOf now x → v.lastVisited ≤ x.lastVisited)) ∧
        (track now p meta s).records =
          eraseFirst v s.records ++ [ActivityRecord.mk p 1 now meta]) := by
  constructor
  · exact applyTracks_length_le m hm events (emptyStore cfg) hcfg
      (by simp [emptyStore])
  · intro s now p meta hmax hex hf hge
    have hne : s.records ≠ [] := by
      intro h0
      rw [h0] at hge
      simp at hge
      omega
    obtain ⟨r, rs, hrs⟩ := List.exists_cons_of_ne_nil hne
    have hv : evictChoice now s.records = some (pickEvict now r rs) := by
      rw [hrs]
      rfl
    refine ⟨pickEvict now r rs, hv, evictChoice_mem hv, ?_, ?_⟩
    · intro x hx
      have := evictChoice_min hv x hx
      rw [worse_false_iff] at this
      constructor
      · omega
      · intro h2
        omega
    · rw [track_eq_insert hex hf]
      show preInsert now s ++ [ActivityRecord.mk p 1 now meta] = _
      unfold preInsert
      rw [hmax]
      dsimp only
      rw [if_pos hge]
      unfold evictOne
      rw [hv]

theorem capacity_and_eviction_spot :
    (1 : Nat) ≤ 1 ∧ (ActivityConfig.mk (some 1) []).max = some 1 ∧
      ((applyTracks (emptyStore (ActivityConfig.mk (some 1) []))
          [VisitEvent.mk 1 "/a" "ma", VisitEvent.mk 2 "/b" "mb"]).records.length
            ≤ 1 ∧
        (∀ (s : ActivityStore) (now : Nat) (p meta : String),
          s.config.max = some 1 →
          isExcluded s.config p = false →
          s.records.find? (fun r => r.path == p) = none →
          1 ≤ s.records.length →
          ∃ v, evictChoice now s.records = some v ∧
            v ∈ s.records ∧
            (∀ x ∈ s.records, scoreOf now v ≤ scoreOf now x ∧
              (scoreOf now v = scoreOf now x → v.lastVisited ≤ x.lastVisited)) ∧
            (track now p meta s).records =
              eraseFirst v s.records ++ [ActivityRecord.mk p 1 now meta])) :=
  ⟨by decide, rfl, capacity_and_eviction 1 (by decide) _ rfl _⟩

/-! ### C3: upsert semantics observed through `query(path).get()` -/

lemma parseSelector_path {p : String} (hne : p ≠ "")
    (hat : strContains p '@' = false)
    (hsl : strStartsWith p "/" = true) :
    parseSelector p = Selector.byPath p := by
  simp [parseSelector, hne, hat, hsl]

lemma filter_byPath_nil {l : List ActivityRecord} {p : String}
    (h : ∀ r ∈ l, r.path ≠ p) :
    l.filter (fun r => matchesSel (Selector.byPath p) r) = [] := by
  rw [List.filter_eq_nil_iff]
  intro r hr
  simp [matchesSel, h r hr]

/-- C3: for a non-excluded path `p` with no existing record, `track(p)`
creates a record with `count = 1`, so an immediate `query(p).get()` returns
exactly that one record; a second `track(p)` increments `count` to `2` and
sets `lastVisited` to the second call's time, so `query(p).get()` then
returns that single updated record.  The path hypotheses reflect that a
route path is non-empty, starts with `/` and contains no `@`, so the
selector parses as an exact path match. -/
theorem track_upsert_counts (s : ActivityStore) (p meta1 meta2 : String)
    (t1 t2 tq : Nat) (hne : p ≠ "") (hat : strContains p '@' = false)
    (hsl : strStartsWith p "/" = true)
    (hex : isExcluded s.config p = false)
    (hf : s.records.find? (fun r => r.path == p) = none) :
    getQ p tq none (track t1 p meta1 s) =
      [mkScored tq (ActivityRecord.mk p 1 t1 meta1)] ∧
    getQ p tq none (track t2 p meta2 (track t1 p meta1 s)) =
      [mkScored tq (ActivityRecord.mk p 2 t2 meta1)] := by
  have hsel : parseSelector p = Selector.byPath p :=
    parseSelector_path hne hat hsl
  have h1 : (track t1 p meta1 s).records =
      preInsert t1 s ++ [ActivityRecord.mk p 1 t1 meta1] := by
    rw [track_eq_insert hex hf]
  have hpre : ∀ r ∈ preInsert t1 s, r.path ≠ p := fun r hr =>
    find?_path_none hf r ((preInsert_sublist t1 s).subset hr)
  constructor
  · unfold getQ
    rw [hsel, h1, List.filter_append, filter_byPath_nil hpre]
    simp [matchesSel, applyLimit]
  · have hex2 : isExcluded (track t1 p meta1 s).config p = false := by
      rw [track_config]
      exact hex
    have hfind2 : (track t1 p meta1 s).records.find?
        (fun r => r.path == p) = some (ActivityRecord.mk p 1 t1 meta1) := by
      rw [h1, List.find?_append]
      have hl : (preInsert t1 s).find? (fun r => r.path == p) = none :=
        List.find?_eq_none.mpr (fun r hr => by simp [hpre r hr])
      rw [hl]
      simp
    have h2 : (track t2 p meta2 (track t1 p meta1 s)).records =
        (preInsert t1 s).map (fun r =>
            if r.path == p
            then ActivityRecord.mk r.path (r.count + 1) t2 r.meta
            else r)
          ++ [ActivityRecord.mk p 2 t2 meta1] := by
      rw [track_eq_update hex2 hfind2]
      show (track t1 p meta1 s).records.map _ = _
      rw [h1, List.map_append]
      simp
    unfold getQ
    rw [hsel, h2, List.filter_append, filter_byPath_nil ?hmap]
    case hmap =>
      intro r hr
      obtain ⟨a, ha, rfl⟩ := List.mem_map.mp hr
      have hap : a.path ≠ p := hpre a ha
      by_cases hb : a.path == p
      · exact absurd (by simpa using hb) hap
      · simp [hb]
        exact hap
    simp [matchesSel, applyLimit]

theorem track_upsert_counts_spot :
    (("/a" : String) ≠ "" ∧ strContains "/a" '@' = false ∧
      strStartsWith "/a" "/" = true ∧
      isExcluded (emptyStore (ActivityConfig.mk none [])).config "/a" = false ∧
      (emptyStore (ActivityConfig.mk none [])).records.find?
        (fun r => r.path == "/a") = none) ∧
    (getQ "/a" 7 none (track 3 "/a" "m1" (emptyStore (ActivityConfig.mk none []))) =
      [mkScored 7 (ActivityRecord.mk "/a" 1 3 "m1")] ∧
    getQ "/a" 7 none
        (track 5 "/a" "m2" (track 3 "/a" "m1" (emptyStore (ActivityConfig.mk none [])))) =
      [mkScored 7 (ActivityRecord.mk "/a" 2 5 "m1")]) :=
  ⟨⟨by decide, by decide, by decide, by decide, by decide⟩,
    track_upsert_counts _ _ _ _ _ _ _ (by decide) (by decide) (by decide)
      (by decide) (by decide)⟩

/-! ### C5: selector scoping -/

lemma getQ_mem_iff (sel : String) (now : Nat) (s : ActivityStore)
    (x : ScoredRecord) :
    x ∈ getQ sel now none s ↔
      ∃ a ∈ s.records,
        matchesSel (parseSelector sel) a = true ∧ x = mkScored now a := by
  unfold getQ applyLimit
  rw [(List.perm_insertionSort scoreGE _).mem_iff]
  constructor
  · intro h
    obtain ⟨a, ha, rfl⟩ := List.mem_map.mp h
    obtain ⟨ha1, ha2⟩ := List.mem_filter.mp ha
    exact ⟨a, ha1, ha2, rfl⟩
  · rintro ⟨a, ha, hm, rfl⟩
    exact List.mem_map.mpr ⟨a, List.mem_filter.mpr ⟨ha, hm⟩, rfl⟩

lemma getQ_length_none (sel : String) (now : Nat) (s : ActivityStore) :
    (getQ sel now none s).length =
      (s.records.filter (matchesSel (parseSelector sel))).length := by
  unfold getQ applyLimit
  rw [(List.perm_insertionSort scoreGE _).length_eq]
  exact List.length_map _ _

lemma filter_path_le_one {l : List ActivityRecord}
    (hnodup : l.Pairwise (fun a b => a.path ≠ b.path)) (p : String) :
    (l.filter (fun r => matchesSel (Selector.byPath p) r)).length ≤ 1 := by
  induction l with
  | nil => simp
  | cons x xs ih =>
      rw [List.pairwise_cons] at hnodup
      obtain ⟨hx, hxs⟩ := hnodup
      by_cases hxp : x.path = p
      · have hrest : xs.filter (fun r => matchesSel (Selector.byPath p) r)
            = [] := by
          refine filter_byPath_nil (fun r hr => ?_)
          intro hrp
          exact hx r hr (by rw [hxp, hrp])
        rw [List.filter_cons, if_pos (by simp [matchesSel, hxp]), hrest]
        simp
      · rw [List.filter_cons, if_neg (by simp [matchesSel, hxp])]
        exact ih hxs

/-- C5: for every store, a selector parsing as `group@type` scopes `get()`
to exactly the records whose derived group and type both match; the empty
selector scopes to all records; `@type` filters by type only; a bare path
selector matches by exact path, and in a store with pathwise-distinct
records it returns at most one record; every `get` result is sorted in
descending order of score. -/
theorem selector_filtering (now : Nat) (s : ActivityStore) :
    (∀ (sel g t : String) (x : ScoredRecord),
      parseSelector sel = Selector.byGroupAndType g t →
      (x ∈ getQ sel now none s ↔
        ∃ a ∈ s.records, pathGroup a.path = g ∧ pathType a.path = t ∧
          x = mkScored now a)) ∧
    (∀ x : ScoredRecord,
      x ∈ getQ "" now none s ↔ ∃ a ∈ s.records, x = mkScored now a) ∧
    (∀ (sel t : String) (x : ScoredRecord),
      parseSelector sel = Selector.byType t →
      (x ∈ getQ sel now none s ↔
        ∃ a ∈ s.records, pathType a.path = t ∧ x = mkScored now a)) ∧
    (∀ (sel p : String) (x : ScoredRecord),
      parseSelector sel = Selector.byPath p →
      (x ∈ getQ sel now none s ↔
        ∃ a ∈ s.records, a.path = p ∧ x = mkScored now a)) ∧
    (∀ (sel p : String),
      s.records.Pairwise (fun a b => a.path ≠ b.path) →
      parseSelector sel = Selector.byPath p →
      (getQ sel now none s).length ≤ 1) ∧
    (∀ (sel : String) (lim : Option Nat),
      (getQ sel now lim s).Pairwise (fun a b => b.score ≤ a.score)) := by
  refine ⟨?_, ?_, ?_, ?_, ?_, ?_⟩
  · intro sel g t x hp
    rw [getQ_mem_iff]
    constructor
    · rintro ⟨a, ha, hm, rfl⟩
      rw [hp] at hm
      simp only [matchesSel, Bool.and_eq_true, beq_iff_eq] at hm
      exact ⟨a, ha, hm.1, hm.2, rfl⟩
    · rintro ⟨a, ha, hg, ht, rfl⟩
      exact ⟨a, ha, by simp [hp, matchesSel, hg, ht], rfl⟩
  · intro x
    rw [getQ_mem_iff]
    constructor
    · rintro ⟨a, ha, _, rfl⟩
      exact ⟨a, ha, rfl⟩
    · rintro ⟨a, ha, rfl⟩
      exact ⟨a, ha, by simp [parseSelector, matchesSel], rfl⟩
  · intro sel t x hp
    rw [getQ_mem_iff]
    constructor
    · rintro ⟨a, ha, hm, rfl⟩
      rw [hp] at hm
      simp only [matchesSel, beq_iff_eq] at hm
      exact ⟨a, ha, hm, rfl⟩
    · rintro ⟨a, ha, ht, rfl⟩
      exact ⟨a, ha, by simp [hp, matchesSel, ht], rfl⟩
  · intro sel p x hp
    rw [getQ_mem_iff]
    constructor
    · rintro ⟨a, ha, hm, rfl⟩
      rw [hp] at hm
      simp only [matchesSel, beq_iff_eq] at hm
      exact ⟨a, ha, hm, rfl⟩
    · rintro ⟨a, ha, hpath, rfl⟩
      exact ⟨a, ha, by simp [hp, matchesSel, hpath], rfl⟩
  · intro sel p hnodup hp
    rw [getQ_length_none, hp]
    exact filter_path_le_one hnodup p
  · intro sel lim
    exact getQ_sorted sel now lim s

end Rosalana
